import Mathlib

/-!
Verification of the line-index / source-snapshot subsystem of
`src/crates/typst/src/syntax/source.rs`.

Text is modelled as a `List Char` of Unicode scalar values; byte offsets are
UTF-8 offsets computed from per-scalar encoded widths, UTF-16 offsets likewise.
Fallible Rust operations (`str::get`, `Option`-returning queries, panics)
are modelled with `Option`.
-/

/-- UTF-8 encoded byte width of a Unicode scalar value (as used by Rust `String`). -/
def utf8Len (c : Char) : Nat :=
  if c.toNat < 0x80 then 1
  else if c.toNat < 0x800 then 2
  else if c.toNat < 0x10000 then 3
  else 4

/-- Modelled from the spec: UTF-16 code-unit width of a scalar value
("1 for BMP scalars, 2 for surrogate-pair-requiring scalars"); the helper
`StrExt::len_utf16` is not among the provided sources. -/
def utf16Len (c : Char) : Nat :=
  if c.toNat < 0x10000 then 1 else 2

/-- Byte length (UTF-8) of a text. -/
def len8 (t : List Char) : Nat := (t.map utf8Len).sum

/-- UTF-16 code-unit length of a text. -/
def len16 (t : List Char) : Nat := (t.map utf16Len).sum

/-- Modelled from the spec: `is_newline` is not among the provided sources; the
spec's line splitting rule recognizes `\n` and `\r` (with `\r\n` merged at the
call sites). -/
def is_newline (c : Char) : Bool :=
  c = '\n' || c = '\r'

/-- Metadata about a line (struct `Line` in `source.rs`). -/
structure Line where
  /-- The UTF-8 byte offset where the line starts. -/
  byte_idx : Nat
  /-- The UTF-16 codepoint offset where the line starts. -/
  utf16_idx : Nat
deriving DecidableEq

/-- `lines_from` of `source.rs`: scan `text`, accumulating byte and UTF-16
offsets from `b` and `u`, and emit a `Line` record immediately after each line
terminator, with `\r` directly followed by `\n` consumed as one terminator. -/
def lines_from (b u : Nat) : List Char → List Line
  | [] => []
  | [c] =>
      if is_newline c then [Line.mk (b + utf8Len c) (u + utf16Len c)] else []
  | c :: d :: s =>
      if c = '\r' ∧ d = '\n' then
        Line.mk (b + 2) (u + 2) :: lines_from (b + 2) (u + 2) s
      else if is_newline c then
        Line.mk (b + utf8Len c) (u + utf16Len c) ::
          lines_from (b + utf8Len c) (u + utf16Len c) (d :: s)
      else
        lines_from (b + utf8Len c) (u + utf16Len c) (d :: s)

/-- `lines` of `source.rs`: the full Line table of a text, with the
unconditional `{0,0}` record first. -/
def lines (text : List Char) : List Line :=
  Line.mk 0 0 :: lines_from 0 0 text

/-- Alias for the table builder `lines`, for use inside the `Source` namespace
(where the unqualified name `lines` denotes the record field). -/
def lines_table (text : List Char) : List Line :=
  lines text

/-- Drop exactly `n` bytes from the front of a text; `none` if `n` is not a
character-boundary offset of the text (models byte slicing `&text[n..]`). -/
def dropBytes : List Char → Nat → Option (List Char)
  | s, 0 => some s
  | [], _ + 1 => none
  | c :: s, n + 1 =>
      if utf8Len c ≤ n + 1 then dropBytes s (n + 1 - utf8Len c) else none

/-- Take exactly `n` bytes from the front of a text; `none` if `n` is not a
character-boundary offset of the text (models byte slicing `&text[..n]`). -/
def takeBytes : List Char → Nat → Option (List Char)
  | _, 0 => some []
  | [], _ + 1 => none
  | c :: s, n + 1 =>
      if utf8Len c ≤ n + 1 then (takeBytes s (n + 1 - utf8Len c)).map (c :: ·) else none

/-- Rust `str::get(a..b)`: the sub-text between byte offsets `a` and `b`, or
`none` when `a > b`, an offset is out of bounds, or an offset is not on a
character boundary. -/
def str_get (t : List Char) (a b : Nat) : Option (List Char) :=
  if a ≤ b then (dropBytes t a).bind (fun suf => takeBytes suf (b - a)) else none

/-- Whether `b` is a UTF-8 character-boundary offset of `t` (including `len8 t`). -/
def is_char_boundary (t : List Char) (b : Nat) : Bool :=
  (dropBytes t b).isSome

/-- Linear reference implementation of Rust `slice::binary_search_by_key`
(documented contract: `Ok i` with `keys[i] = k` when present, otherwise
`Err` of the insertion point), for the sorted key vectors of the Line table. -/
def bsearch_go (k i : Nat) : List Nat → Sum Nat Nat
  | [] => Sum.inr i
  | x :: xs =>
      if k ≤ x then (if x = k then Sum.inl i else Sum.inr i)
      else bsearch_go k (i + 1) xs

/-- See `bsearch_go`. -/
def binary_search_by_key (keys : List Nat) (k : Nat) : Sum Nat Nat :=
  bsearch_go k 0 keys

/-- The `match { Ok(i) => i, Err(i) => i - 1 }` pattern of `byte_to_line` and
`utf16_to_byte`. -/
def sel : Sum Nat Nat → Nat
  | Sum.inl i => i
  | Sum.inr i => i - 1

/-- Binary search followed by the `Ok(i) => i, Err(i) => i - 1` selection, as
used by `byte_to_line` and `utf16_to_byte`. -/
def bsearch_line (keys : List Nat) (k : Nat) : Nat :=
  sel (binary_search_by_key keys k)

/-- Modelled from the spec: the syntax tree (external to this subsystem; the
parser, tree type and reparser are not among the provided sources). The tree is
"derived deterministically from `text`". -/
structure ParseTree where
  src : List Char
deriving DecidableEq

/-- Modelled from the spec: the external full parse, which "must never fail for
any valid UTF-8 input" and is deterministic in the text. -/
def parse (text : List Char) : ParseTree :=
  ParseTree.mk text

/-- Modelled from the spec: the external incremental reparser; it either patches
the affected subtree of the tree for the new text or falls back to a full parse,
in both cases yielding the tree of the new full text. -/
def reparse (_root : ParseTree) (newText : List Char) (_start _stop _replacementLen : Nat) :
    ParseTree :=
  parse newText

/-- A source snapshot (struct `Source` / `Repr` in `source.rs`): identity, text,
syntax-tree root and Line table. The copy-on-write `Arc` is transparent in this
value semantics. -/
structure Source where
  id : Nat
  text : List Char
  root : ParseTree
  lines : List Line
deriving DecidableEq

/-- `Source::new`: full parse and full Line-table build. -/
def Source.new (id : Nat) (text : List Char) : Source :=
  { id := id, text := text, root := parse text, lines := lines_table text }

/-- `Source::clone` (an `Arc` clone): both handles observe the same value. -/
def Source.clone (src : Source) : Source := src

/-- `Source::replace`: rebuild the Line table and tree from scratch, keep the id. -/
def Source.replace (src : Source) (text : List Char) : Source :=
  { id := src.id, text := text, root := parse text, lines := lines_table text }

/-- `Source::byte_to_line`: `none` when `byte_idx` exceeds the text length,
otherwise binary-search the Line table by `byte_idx`. -/
def Source.byte_to_line (src : Source) (byte_idx : Nat) : Option Nat :=
  if byte_idx ≤ len8 src.text then
    some (bsearch_line (src.lines.map Line.byte_idx) byte_idx)
  else none

/-- `Source::line_to_byte`: the byte offset at which the given line starts. -/
def Source.line_to_byte (src : Source) (line_idx : Nat) : Option Nat :=
  (src.lines[line_idx]?).map Line.byte_idx

/-- `Source::line_to_range`: a line's byte range; its end is the next line's
start, or the text end for the last line. -/
def Source.line_to_range (src : Source) (line_idx : Nat) : Option (Nat × Nat) := do
  let start ← src.line_to_byte line_idx
  some (start, (src.line_to_byte (line_idx + 1)).getD (len8 src.text))

/-- `Source::byte_to_utf16`: locate the owning line, then add the UTF-16 width
of the slice from the line start to `byte_idx`. -/
def Source.byte_to_utf16 (src : Source) (byte_idx : Nat) : Option Nat := do
  let line_idx ← src.byte_to_line byte_idx
  let line ← src.lines[line_idx]?
  let head ← str_get src.text line.byte_idx byte_idx
  some (line.utf16_idx + len16 head)

/-- `Source::byte_to_column`: the number of scalar values between the owning
line's start and `byte_idx`. -/
def Source.byte_to_column (src : Source) (byte_idx : Nat) : Option Nat := do
  let line_idx ← src.byte_to_line byte_idx
  let start ← src.line_to_byte line_idx
  let head ← str_get src.text start byte_idx
  some head.length

/-- The character scan of `Source::utf16_to_byte`: walk the owning line's
suffix from absolute byte position `bpos` with running UTF-16 offset `k`,
returning the current byte position once `k` reaches `target`; at the end of
text succeed only when `k` lands exactly on `target`. -/
def utf16_scan (bpos k target : Nat) : List Char → Option Nat
  | [] => if k = target then some bpos else none
  | c :: s =>
      if target ≤ k then some bpos
      else utf16_scan (bpos + utf8Len c) (k + utf16Len c) target s

/-- `Source::utf16_to_byte`: binary-search the Line table by `utf16_idx`, then
scan the owning line's suffix. (The Rust code slices `&text[line.byte_idx..]`
by direct indexing; for the tables produced by `lines` this offset is always a
character boundary, so the `dropBytes` bind below never fails there.) -/
def Source.utf16_to_byte (src : Source) (utf16_idx : Nat) : Option Nat := do
  let line ← src.lines[bsearch_line (src.lines.map Line.utf16_idx) utf16_idx]?
  let suffix ← dropBytes src.text line.byte_idx
  utf16_scan line.byte_idx line.utf16_idx utf16_idx suffix

/-- `Source::line_column_to_byte`: advance `column_idx` scalar values from the
line's start (`List.take` mirrors the Rust char-iterator, which silently stops
at the line's end). -/
def Source.line_column_to_byte (src : Source) (line_idx column_idx : Nat) : Option Nat := do
  let r ← src.line_to_range line_idx
  let line ← str_get src.text r.1 r.2
  some (r.1 + len8 (line.take column_idx))

/-- `Source::edit`: replace byte range `[a, b)` of the text with `w`,
incrementally update the Line table, and reparse. A Rust panic (out-of-bounds
or non-character-boundary range, via `unwrap`/`replace_range` indexing) is
modelled as `none`. -/
def Source.edit (src : Source) (a b : Nat) (w : List Char) : Option Source := do
  let start_utf16 ← src.byte_to_utf16 a
  let line ← src.byte_to_line a
  if a ≤ b then
    let pre ← takeBytes src.text a
    let suf ← dropBytes src.text b
    let newText := pre ++ w ++ suf
    -- Remove invalidated line starts.
    let truncated := src.lines.take (line + 1)
    -- Handle adjoining of \r and \n (`pre` is the new text up to `a`).
    let merged :=
      if pre.getLast? = some '\r' ∧ w.head? = some '\n' then truncated.dropLast
      else truncated
    -- Recalculate the line starts after the edit.
    some { id := src.id, text := newText,
           root := reparse src.root newText a b (len8 w),
           lines := merged ++ lines_from a start_utf16 (w ++ suf) }
  else none

/-! ### Basic width and length lemmas -/

theorem utf8Len_pos (c : Char) : 0 < utf8Len c := by
  unfold utf8Len; split_ifs <;> omega

theorem utf16Len_pos (c : Char) : 0 < utf16Len c := by
  unfold utf16Len; split_ifs <;> omega

@[simp] theorem len8_nil : len8 [] = 0 := rfl

@[simp] theorem len8_cons (c : Char) (t : List Char) :
    len8 (c :: t) = utf8Len c + len8 t := by
  simp [len8]

@[simp] theorem len8_append (p s : List Char) :
    len8 (p ++ s) = len8 p + len8 s := by
  simp [len8]

@[simp] theorem len16_nil : len16 [] = 0 := rfl

@[simp] theorem len16_cons (c : Char) (t : List Char) :
    len16 (c :: t) = utf16Len c + len16 t := by
  simp [len16]

@[simp] theorem len16_append (p s : List Char) :
    len16 (p ++ s) = len16 p + len16 s := by
  simp [len16]

theorem len8_eq_zero {p : List Char} : len8 p = 0 ↔ p = [] := by
  cases p with
  | nil => simp
  | cons c t => simp; have := utf8Len_pos c; omega

theorem len8_pos {p : List Char} (h : p ≠ []) : 0 < len8 p := by
  rcases Nat.eq_zero_or_pos (len8 p) with h0 | h0
  · exact absurd (len8_eq_zero.mp h0) h
  · exact h0

theorem len16_pos {p : List Char} (h : p ≠ []) : 0 < len16 p := by
  cases p with
  | nil => exact absurd rfl h
  | cons c t => simp; have := utf16Len_pos c; omega

@[simp] theorem utf8Len_cr : utf8Len '\r' = 1 := by decide

@[simp] theorem utf8Len_lf : utf8Len '\n' = 1 := by decide

@[simp] theorem utf16Len_cr : utf16Len '\r' = 1 := by decide

@[simp] theorem utf16Len_lf : utf16Len '\n' = 1 := by decide

/-! ### Equation interface for `lines_from` -/

@[simp] theorem lf_nil (b u : Nat) : lines_from b u [] = [] := rfl

theorem lf_crlf (b u : Nat) (s : List Char) :
    lines_from b u ('\r' :: '\n' :: s)
      = Line.mk (b + 2) (u + 2) :: lines_from (b + 2) (u + 2) s := by
  simp [lines_from]

theorem lf_cons_nl (b u : Nat) (c : Char) (s : List Char)
    (h : is_newline c = true) (h2 : ¬(c = '\r' ∧ s.head? = some '\n')) :
    lines_from b u (c :: s)
      = Line.mk (b + utf8Len c) (u + utf16Len c) ::
          lines_from (b + utf8Len c) (u + utf16Len c) s := by
  cases s with
  | nil => simp [lines_from, h]
  | cons d s' =>
      have hne : ¬(c = '\r' ∧ d = '\n') := by
        intro hcd; exact h2 ⟨hcd.1, by simp [hcd.2]⟩
      simp [lines_from, hne, h]

theorem lf_cons_not (b u : Nat) (c : Char) (s : List Char)
    (h : is_newline c = false) :
    lines_from b u (c :: s) = lines_from (b + utf8Len c) (u + utf16Len c) s := by
  cases s with
  | nil => simp [lines_from, h]
  | cons d s' =>
      have hne : ¬(c = '\r' ∧ d = '\n') := by
        intro hcd; rw [hcd.1] at h; simp [is_newline] at h
      simp [lines_from, hne, h]

/-- Custom induction principle following the recursion pattern of `lines_from`. -/
theorem lines_rec (motive : Nat → Nat → List Char → Prop)
    (h0 : ∀ b u, motive b u [])
    (h1 : ∀ b u s, motive (b + 2) (u + 2) s → motive b u ('\r' :: '\n' :: s))
    (h2 : ∀ b u c s, is_newline c = true → ¬(c = '\r' ∧ s.head? = some '\n') →
      motive (b + utf8Len c) (u + utf16Len c) s → motive b u (c :: s))
    (h3 : ∀ b u c s, is_newline c = false →
      motive (b + utf8Len c) (u + utf16Len c) s → motive b u (c :: s)) :
    ∀ b u t, motive b u t := by
  have main : ∀ (n : Nat) (t : List Char), t.length ≤ n → ∀ b u, motive b u t := by
    intro n
    induction n with
    | zero =>
        intro t ht b u
        have : t = [] := by cases tated : t <;> simp_all
        subst this; exact h0 b u
    | succ n ih =>
        intro t ht b u
        cases t with
        | nil => exact h0 b u
        | cons c s =>
            by_cases hcr : c = '\r' ∧ s.head? = some '\n'
            · obtain ⟨hc, hd⟩ := hcr
              subst hc
              cases s with
              | nil => simp at hd
              | cons d s' =>
                  have hd' : d = '\n' := by simpa using hd
                  subst hd'
                  refine h1 b u s' (ih s' ?_ _ _)
                  simp at ht; omega
            · by_cases hnl : is_newline c
              · refine h2 b u c s hnl hcr (ih s ?_ _ _)
                simp at ht; omega
              · refine h3 b u c s (by simpa using hnl) (ih s ?_ _ _)
                simp at ht; omega
  intro b u t
  exact main t.length t le_rfl b u

/-! ### Structure of the Line table -/

/-- Every record emitted by `lines_from b u t` marks a nonempty
character-boundary cut of `t`, with matching byte and UTF-16 offsets. -/
theorem lines_from_cut :
    ∀ b u t, ∀ L ∈ lines_from b u t,
      ∃ q r, t = q ++ r ∧ q ≠ [] ∧ L = Line.mk (b + len8 q) (u + len16 q) := by
  have key : ∀ b u t, ∀ L ∈ lines_from b u t,
      ∃ q r, t = q ++ r ∧ q ≠ [] ∧ L = Line.mk (b + len8 q) (u + len16 q) := by
    refine lines_rec (fun b u t => ∀ L ∈ lines_from b u t,
      ∃ q r, t = q ++ r ∧ q ≠ [] ∧ L = Line.mk (b + len8 q) (u + len16 q)) ?_ ?_ ?_ ?_
    · intro b u L hL; simp at hL
    · intro b u s ih L hL
      rw [lf_crlf] at hL
      rcases List.mem_cons.mp hL with hL | hL
      · exact ⟨['\r', '\n'], s, by simp, by simp, by simp [hL]⟩
      · obtain ⟨q, r, hqr, hq, hLv⟩ := ih L hL
        refine ⟨'\r' :: '\n' :: q, r, by simp [hqr], by simp, ?_⟩
        rw [hLv]; simp only [Line.mk.injEq, len8_cons, len16_cons, utf8Len_cr,
          utf8Len_lf, utf16Len_cr, utf16Len_lf]
        omega
    · intro b u c s hnl hne ih L hL
      rw [lf_cons_nl _ _ _ _ hnl hne] at hL
      rcases List.mem_cons.mp hL with hL | hL
      · exact ⟨[c], s, by simp, by simp, by simp [hL]⟩
      · obtain ⟨q, r, hqr, hq, hLv⟩ := ih L hL
        refine ⟨c :: q, r, by simp [hqr], by simp, ?_⟩
        rw [hLv]; simp only [Line.mk.injEq, len8_cons, len16_cons]
        omega
    · intro b u c s hnl ih L hL
      rw [lf_cons_not _ _ _ _ hnl] at hL
      obtain ⟨q, r, hqr, hq, hLv⟩ := ih L hL
      refine ⟨c :: q, r, by simp [hqr], by simp, ?_⟩
      rw [hLv]; simp only [Line.mk.injEq, len8_cons, len16_cons]
      omega
  exact key

/-- The relation "strictly increasing in both offsets" on Line records. -/
def LineLt (A B : Line) : Prop :=
  A.byte_idx < B.byte_idx ∧ A.utf16_idx < B.utf16_idx

theorem lineLt_trans {A B C : Line} (h1 : LineLt A B) (h2 : LineLt B C) : LineLt A C :=
  ⟨Nat.lt_trans h1.1 h2.1, Nat.lt_trans h1.2 h2.2⟩

theorem chain_weaken {A B : Line} {l : List Line}
    (h : List.Chain' LineLt (B :: l)) (hAB : LineLt A B) :
    List.Chain' LineLt (A :: l) := by
  cases l with
  | nil => simp
  | cons C l' =>
      rw [List.chain'_cons] at h ⊢
      exact ⟨lineLt_trans hAB h.1, h.2⟩

/-- The table headed by its start record is strictly sorted in both offsets. -/
theorem lines_from_chain :
    ∀ b u t, List.Chain' LineLt (Line.mk b u :: lines_from b u t) := by
  refine lines_rec (fun b u t => List.Chain' LineLt (Line.mk b u :: lines_from b u t))
    ?_ ?_ ?_ ?_
  · intro b u; simp
  · intro b u s ih
    rw [lf_crlf, List.chain'_cons]
    exact ⟨⟨by show b < b + 2; omega, by show u < u + 2; omega⟩, ih⟩
  · intro b u c s hnl hne ih
    rw [lf_cons_nl _ _ _ _ hnl hne, List.chain'_cons]
    have h8 := utf8Len_pos c
    have h16 := utf16Len_pos c
    exact ⟨⟨by show b < b + utf8Len c; omega, by show u < u + utf16Len c; omega⟩, ih⟩
  · intro b u c s hnl ih
    rw [lf_cons_not _ _ _ _ hnl]
    have h8 := utf8Len_pos c
    have h16 := utf16Len_pos c
    exact chain_weaken ih
      ⟨by show b < b + utf8Len c; omega, by show u < u + utf16Len c; omega⟩

theorem lines_chain (t : List Char) : List.Chain' LineLt (lines t) :=
  lines_from_chain 0 0 t

/-- Modelled from the spec: the number of line breaks of a text under the
splitting rule (a break at `\n`, at `\r` not followed by `\n`, and at `\r\n`
taken as a single two-byte terminator). -/
def countBreaks : List Char → Nat
  | [] => 0
  | [c] => if c = '\n' ∨ c = '\r' then 1 else 0
  | c :: d :: s =>
      if c = '\r' ∧ d = '\n' then countBreaks s + 1
      else if c = '\n' ∨ c = '\r' then countBreaks (d :: s) + 1
      else countBreaks (d :: s)

theorem cb_crlf (s : List Char) : countBreaks ('\r' :: '\n' :: s) = countBreaks s + 1 := by
  simp [countBreaks]

theorem cb_cons_nl (c : Char) (s : List Char)
    (h : is_newline c = true) (h2 : ¬(c = '\r' ∧ s.head? = some '\n')) :
    countBreaks (c :: s) = countBreaks s + 1 := by
  have hc : c = '\n' ∨ c = '\r' := by
    simpa [is_newline] using h
  cases s with
  | nil => simp [countBreaks, hc]
  | cons d s' =>
      have hne : ¬(c = '\r' ∧ d = '\n') := by
        intro hcd; exact h2 ⟨hcd.1, by simp [hcd.2]⟩
      simp [countBreaks, hne, hc]

theorem cb_cons_not (c : Char) (s : List Char) (h : is_newline c = false) :
    countBreaks (c :: s) = countBreaks s := by
  have hc : ¬(c = '\n' ∨ c = '\r') := by
    simpa [is_newline] using h
  cases s with
  | nil => simp [countBreaks, hc]
  | cons d s' =>
      have hne : ¬(c = '\r' ∧ d = '\n') := by
        intro hcd; exact hc (Or.inr hcd.1)
      simp [countBreaks, hne, hc]

/-- One record per line break. -/
theorem lines_from_length :
    ∀ b u t, (lines_from b u t).length = countBreaks t := by
  refine lines_rec (fun b u t => (lines_from b u t).length = countBreaks t) ?_ ?_ ?_ ?_
  · intro b u; simp [countBreaks]
  · intro b u s ih; rw [lf_crlf, cb_crlf]; simp [ih]
  · intro b u c s hnl hne ih
    rw [lf_cons_nl _ _ _ _ hnl hne, cb_cons_nl _ _ hnl hne]; simp [ih]
  · intro b u c s hnl ih
    rw [lf_cons_not _ _ _ _ hnl, cb_cons_not _ _ hnl]; exact ih

/-! ### Byte slicing lemmas -/

theorem dropBytes_appendLen : ∀ (p s : List Char), dropBytes (p ++ s) (len8 p) = some s := by
  intro p
  induction p with
  | nil => intro s; simp [dropBytes]
  | cons c p' ih =>
      intro s
      have h8 := utf8Len_pos c
      have hlen : len8 (c :: p') = (utf8Len c + len8 p' - 1) + 1 := by simp; omega
      rw [List.cons_append, hlen]
      show dropBytes (c :: (p' ++ s)) (utf8Len c + len8 p' - 1 + 1) = some s
      rw [dropBytes]
      have hle : utf8Len c ≤ utf8Len c + len8 p' - 1 + 1 := by omega
      rw [if_pos hle]
      have : utf8Len c + len8 p' - 1 + 1 - utf8Len c = len8 p' := by omega
      rw [this]
      exact ih s

theorem dropBytes_eq_some :
    ∀ (t : List Char) (n : Nat) (r : List Char), dropBytes t n = some r →
      ∃ p, t = p ++ r ∧ len8 p = n := by
  intro t
  induction t with
  | nil =>
      intro n r h
      cases n with
      | zero =>
          have hr : r = [] := (Option.some.inj h).symm
          exact ⟨[], by simp [hr], rfl⟩
      | succ m => simp [dropBytes] at h
  | cons c s ih =>
      intro n r h
      cases n with
      | zero =>
          simp [dropBytes] at h
          exact ⟨[], by simp [h], rfl⟩
      | succ m =>
          rw [dropBytes] at h
          by_cases hle : utf8Len c ≤ m + 1
          · rw [if_pos hle] at h
            obtain ⟨p', hp', hlen⟩ := ih _ _ h
            exact ⟨c :: p', by simp [hp'], by simp [hlen]; omega⟩
          · rw [if_neg hle] at h; exact absurd h (by simp)

theorem takeBytes_appendLen : ∀ (p s : List Char), takeBytes (p ++ s) (len8 p) = some p := by
  intro p
  induction p with
  | nil => intro s; simp [takeBytes]
  | cons c p' ih =>
      intro s
      have h8 := utf8Len_pos c
      have hlen : len8 (c :: p') = (utf8Len c + len8 p' - 1) + 1 := by simp; omega
      rw [List.cons_append, hlen]
      show takeBytes (c :: (p' ++ s)) (utf8Len c + len8 p' - 1 + 1) = some (c :: p')
      rw [takeBytes]
      have hle : utf8Len c ≤ utf8Len c + len8 p' - 1 + 1 := by omega
      rw [if_pos hle]
      have : utf8Len c + len8 p' - 1 + 1 - utf8Len c = len8 p' := by omega
      rw [this, ih s]
      rfl

theorem takeBytes_eq_some :
    ∀ (t : List Char) (n : Nat) (p : List Char), takeBytes t n = some p →
      ∃ r, t = p ++ r ∧ len8 p = n := by
  intro t
  induction t with
  | nil =>
      intro n p h
      cases n with
      | zero =>
          have hp : p = [] := (Option.some.inj h).symm
          exact ⟨[], by simp [hp], by simp [hp]⟩
      | succ m => simp [takeBytes] at h
  | cons c s ih =>
      intro n p h
      cases n with
      | zero =>
          have hp : p = [] := (Option.some.inj h).symm
          exact ⟨c :: s, by simp [hp], by simp [hp]⟩
      | succ m =>
          rw [takeBytes] at h
          by_cases hle : utf8Len c ≤ m + 1
          · rw [if_pos hle] at h
            cases hpre : takeBytes s (m + 1 - utf8Len c) with
            | none => rw [hpre] at h; simp at h
            | some p' =>
                rw [hpre] at h
                simp at h
                obtain ⟨r, hr, hlen⟩ := ih _ _ hpre
                subst h
                refine ⟨r, by simp [hr], ?_⟩
                simp [hlen]; omega
          · rw [if_neg hle] at h; exact absurd h (by simp)

theorem str_get_spec (q m r : List Char) :
    str_get (q ++ m ++ r) (len8 q) (len8 q + len8 m) = some m := by
  unfold str_get
  rw [if_pos (Nat.le_add_right _ _), List.append_assoc, dropBytes_appendLen]
  have harith : len8 q + len8 m - len8 q = len8 m := by omega
  simp only [harith]
  exact takeBytes_appendLen m r

theorem is_char_boundary_cut (p s : List Char) :
    is_char_boundary (p ++ s) (len8 p) = true := by
  simp [is_char_boundary, dropBytes_appendLen]

theorem is_char_boundary_split {t : List Char} {n : Nat}
    (h : is_char_boundary t n = true) : ∃ p s, t = p ++ s ∧ len8 p = n := by
  simp only [is_char_boundary, Option.isSome_iff_exists] at h
  obtain ⟨r, hr⟩ := h
  obtain ⟨p, hp, hlen⟩ := dropBytes_eq_some _ _ _ hr
  exact ⟨p, r, hp, hlen⟩

theorem dropBytes_none_of_not_boundary {t : List Char} {n : Nat}
    (h : is_char_boundary t n = false) : dropBytes t n = none := by
  cases hd : dropBytes t n with
  | none => rfl
  | some r => rw [is_char_boundary, hd] at h; simp at h

/-- Two cuts of the same text are prefix-comparable via their byte offsets. -/
theorem cut_cmp :
    ∀ (p1 s1 p2 s2 : List Char), p1 ++ s1 = p2 ++ s2 → len8 p1 ≤ len8 p2 →
      ∃ m, p2 = p1 ++ m := by
  intro p1
  induction p1 with
  | nil => intro s1 p2 s2 _ _; exact ⟨p2, rfl⟩
  | cons c p1' ih =>
      intro s1 p2 s2 ht hle
      cases p2 with
      | nil =>
          exfalso
          have h8 := utf8Len_pos c
          simp at hle
          omega
      | cons c2 p2' =>
          simp only [List.cons_append, List.cons.injEq] at ht
          obtain ⟨hc, ht'⟩ := ht
          subst hc
          simp only [len8_cons] at hle
          obtain ⟨m, hm⟩ := ih s1 p2' s2 ht' (by omega)
          exact ⟨m, by simp [hm]⟩

theorem len8_mono_of_ne {q e : List Char} (h : e ≠ []) : len8 q < len8 (q ++ e) := by
  have := len8_pos h
  simp; omega

/-! ### Decomposing a scan over an append -/

/-- Splitting a scan at a cut that does not separate a `\r` from a following
`\n`: the Line records of the whole are those of the prefix followed by those
of the suffix scan continued at the prefix's end offsets. -/
theorem lines_from_append :
    ∀ b u p, ∀ s : List Char,
      ¬(p.getLast? = some '\r' ∧ s.head? = some '\n') →
      lines_from b u (p ++ s)
        = lines_from b u p ++ lines_from (b + len8 p) (u + len16 p) s := by
  refine lines_rec (fun b u p => ∀ s : List Char,
    ¬(p.getLast? = some '\r' ∧ s.head? = some '\n') →
    lines_from b u (p ++ s)
      = lines_from b u p ++ lines_from (b + len8 p) (u + len16 p) s) ?_ ?_ ?_ ?_
  · intro b u s _; simp
  · intro b u p'' ih s hc
    have hc'' : ¬(p''.getLast? = some '\r' ∧ s.head? = some '\n') := by
      intro ⟨h1, h2⟩
      refine hc ⟨?_, h2⟩
      cases p'' with
      | nil => simp at h1
      | cons x xs => simpa using h1
    have harr : ('\r' :: '\n' :: p'') ++ s = '\r' :: '\n' :: (p'' ++ s) := by simp
    rw [harr, lf_crlf, lf_crlf, ih s hc'']
    have h8 : b + len8 ('\r' :: '\n' :: p'') = b + 2 + len8 p'' := by simp; omega
    have h16 : u + len16 ('\r' :: '\n' :: p'') = u + 2 + len16 p'' := by simp; omega
    rw [h8, h16]
    simp
  · intro b u c p' hnl hne ih s hc
    have hcomb : ¬(c = '\r' ∧ (p' ++ s).head? = some '\n') := by
      cases p' with
      | nil =>
          intro ⟨h1, h2⟩
          exact hc ⟨by simp [h1], by simpa using h2⟩
      | cons d p'' => intro ⟨h1, h2⟩; exact hne ⟨h1, by simpa using h2⟩
    have hc' : ¬(p'.getLast? = some '\r' ∧ s.head? = some '\n') := by
      intro ⟨h1, h2⟩
      refine hc ⟨?_, h2⟩
      cases p' with
      | nil => simp at h1
      | cons x xs => simpa using h1
    have harr : (c :: p') ++ s = c :: (p' ++ s) := by simp
    rw [harr, lf_cons_nl _ _ _ _ hnl hcomb, lf_cons_nl _ _ _ _ hnl hne, ih s hc']
    have h8 : b + len8 (c :: p') = b + utf8Len c + len8 p' := by simp; omega
    have h16 : u + len16 (c :: p') = u + utf16Len c + len16 p' := by simp; omega
    rw [h8, h16]
    simp
  · intro b u c p' hnl ih s hc
    have hc' : ¬(p'.getLast? = some '\r' ∧ s.head? = some '\n') := by
      intro ⟨h1, h2⟩
      refine hc ⟨?_, h2⟩
      cases p' with
      | nil => simp at h1
      | cons x xs => simpa using h1
    have harr : (c :: p') ++ s = c :: (p' ++ s) := by simp
    rw [harr, lf_cons_not _ _ _ _ hnl, lf_cons_not _ _ _ _ hnl, ih s hc']
    have h8 : b + len8 (c :: p') = b + utf8Len c + len8 p' := by simp; omega
    have h16 : u + len16 (c :: p') = u + utf16Len c + len16 p' := by simp; omega
    rw [h8, h16]

/-- Splitting a scan at a cut that separates a retained `\r` from a following
`\n`: the prefix's final record (for the `\r`-only break) is not a record of
the whole scan — the two characters merge into one terminator. -/
theorem lines_from_append_merge :
    ∀ b u p s, p.getLast? = some '\r' → s.head? = some '\n' →
      lines_from b u (p ++ s)
        = (lines_from b u p).dropLast
            ++ lines_from (b + len8 p) (u + len16 p) s := by
  intro b u p s hp hs
  obtain ⟨p₀, hp₀⟩ : ∃ p₀, p = p₀ ++ ['\r'] := by
    rcases List.eq_nil_or_concat p with h | ⟨p₀, a, h⟩
    · subst h; simp at hp
    · subst h; simp at hp; exact ⟨p₀, by simp [hp]⟩
  obtain ⟨s', hs'⟩ : ∃ s', s = '\n' :: s' := by
    cases s with
    | nil => simp at hs
    | cons x s' => exact ⟨s', by simpa using hs⟩
  subst hp₀ hs'
  have harr : (p₀ ++ ['\r']) ++ '\n' :: s' = p₀ ++ ('\r' :: '\n' :: s') := by simp
  rw [harr]
  rw [lines_from_append b u p₀ ('\r' :: '\n' :: s') (by simp), lf_crlf]
  rw [lines_from_append b u p₀ ['\r'] (by simp)]
  have hone : ∀ B U : Nat, lines_from B U ['\r'] = [Line.mk (B + 1) (U + 1)] := by
    intro B U; simp [lines_from, is_newline]
  rw [hone]
  rw [List.dropLast_append_of_ne_nil _ (by simp)]
  simp only [List.dropLast_single, List.append_nil]
  have hnl : ∀ B U : Nat, lines_from B U ('\n' :: s')
      = Line.mk (B + 1) (U + 1) :: lines_from (B + 1) (U + 1) s' := by
    intro B U
    exact lf_cons_nl B U '\n' s' (by simp [is_newline]) (by simp)
  rw [hnl]
  have h8 : b + len8 (p₀ ++ ['\r']) = b + len8 p₀ + 1 := by simp; omega
  have h16 : u + len16 (p₀ ++ ['\r']) = u + len16 p₀ + 1 := by simp; omega
  rw [h8, h16]

/-! ### Binary search correctness on sorted keys -/

theorem sel_go_gt (k : Nat) :
    ∀ (ks2 : List Nat) (j : Nat), (∀ x ∈ ks2, k < x) →
      sel (bsearch_go k j ks2) = j - 1 := by
  intro ks2 j hgt
  cases ks2 with
  | nil => rfl
  | cons y ys =>
      have hky : k < y := hgt y (by simp)
      rw [bsearch_go, if_pos (Nat.le_of_lt hky), if_neg (by omega)]
      rfl

theorem sel_go_main (k : Nat) :
    ∀ (ks1 : List Nat), ks1 ≠ [] → ∀ (j : Nat) (ks2 : List Nat),
      List.Chain' (· < ·) ks1 → (∀ x ∈ ks1, x ≤ k) → (∀ x ∈ ks2, k < x) →
      sel (bsearch_go k j (ks1 ++ ks2)) = j + ks1.length - 1 := by
  intro ks1
  induction ks1 with
  | nil => intro h; exact absurd rfl h
  | cons x xs ih =>
      intro _ j ks2 hch hle hgt
      cases xs with
      | nil =>
          have hxk : x ≤ k := hle x (by simp)
          simp only [List.singleton_append]
          rw [bsearch_go]
          by_cases hxe : x = k
          · rw [if_pos (by omega), if_pos hxe]
            simp [sel]
          · have hlt : x < k := by omega
            rw [if_neg (by omega)]
            rw [sel_go_gt k ks2 (j + 1) hgt]
            simp
      | cons x' rest =>
          have hxx' : x < x' := (List.chain'_cons.mp hch).1
          have hx'le : x' ≤ k := hle x' (by simp)
          rw [List.cons_append, bsearch_go, if_neg (by omega)]
          rw [ih (by simp) (j + 1) ks2 (List.chain'_cons.mp hch).2
            (fun y hy => hle y (by simp [hy])) hgt]
          simp; omega

/-- Binary search + `Err(i) => i - 1` on keys split into a sorted nonempty
block of keys `≤ k` followed by keys `> k` returns the index of the last
element of the first block. -/
theorem bsearch_line_split (ks1 ks2 : List Nat) (k : Nat)
    (h1 : ks1 ≠ []) (hch : List.Chain' (· < ·) ks1)
    (hle : ∀ x ∈ ks1, x ≤ k) (hgt : ∀ x ∈ ks2, k < x) :
    bsearch_line (ks1 ++ ks2) k = ks1.length - 1 := by
  unfold bsearch_line binary_search_by_key
  have := sel_go_main k ks1 h1 0 ks2 hch hle hgt
  simpa using this


/-! ### The Line table around a character-boundary cut -/

theorem getLast?_mem' : ∀ (l : List Line) (a : Line), l.getLast? = some a → a ∈ l := by
  intro l
  induction l with
  | nil => intro a h; simp at h
  | cons x xs ih =>
      intro a h
      cases xs with
      | nil => simp at h; simp [h]
      | cons y ys =>
          rw [List.getLast?_cons_cons] at h
          exact List.mem_cons_of_mem x (ih a h)

/-- The head block `{0,0} :: F` of a table decomposition at the cut `p`
consists of records at cuts of `p` and ends at some cut of `p`. -/
theorem head_block_facts (p : List Char) (F : List Line)
    (hF : ∀ L ∈ F, L ∈ lines_from 0 0 p) :
    (∀ L ∈ Line.mk 0 0 :: F, ∃ q1 m1, p = q1 ++ m1 ∧ L = Line.mk (len8 q1) (len16 q1)) ∧
    ∃ q m, p = q ++ m ∧ (Line.mk 0 0 :: F).getLast? = some (Line.mk (len8 q) (len16 q)) := by
  have hmem : ∀ L ∈ Line.mk 0 0 :: F,
      ∃ q1 m1, p = q1 ++ m1 ∧ L = Line.mk (len8 q1) (len16 q1) := by
    intro L hL
    rcases List.mem_cons.mp hL with hL | hL
    · exact ⟨[], p, by simp, by simp [hL]⟩
    · obtain ⟨q1, m1, hq, _, hLv⟩ := lines_from_cut 0 0 p L (hF L hL)
      exact ⟨q1, m1, hq, by simp [hLv]⟩
  refine ⟨hmem, ?_⟩
  cases hFe : F with
  | nil => exact ⟨[], p, by simp, by simp⟩
  | cons x F' =>
      subst hFe
      cases hlast : (x :: F').getLast? with
      | none => simp at hlast
      | some L =>
          obtain ⟨q1, m1, hq, hLv⟩ :=
            hmem L (List.mem_cons_of_mem _ (getLast?_mem' _ L hlast))
          refine ⟨q1, m1, hq, ?_⟩
          rw [List.getLast?_cons_cons, hlast, hLv]

/-- Structure of the Line table of `p ++ s` around the cut at `len8 p`:
a nonempty block `T1` of records at cuts of `p`, whose last entry is the
owning record of the cut, followed by the records of the suffix scan. -/
theorem table_split (p s : List Char) :
    ∃ (T1 : List Line) (q m : List Char),
      lines (p ++ s) = T1 ++ lines_from (len8 p) (len16 p) s ∧
      p = q ++ m ∧
      T1 ≠ [] ∧
      T1.getLast? = some (Line.mk (len8 q) (len16 q)) ∧
      (∀ L ∈ T1, ∃ q1 m1, p = q1 ++ m1 ∧ L = Line.mk (len8 q1) (len16 q1)) := by
  have hz : lines_from (0 + len8 p) (0 + len16 p) s = lines_from (len8 p) (len16 p) s := by
    rw [Nat.zero_add, Nat.zero_add]
  by_cases hm : p.getLast? = some '\r' ∧ s.head? = some '\n'
  · have hdec := lines_from_append_merge 0 0 p s hm.1 hm.2
    rw [hz] at hdec
    have hsub : ∀ L ∈ (lines_from 0 0 p).dropLast, L ∈ lines_from 0 0 p :=
      fun L hL => (List.dropLast_sublist (lines_from 0 0 p)).subset hL
    obtain ⟨hmem, q, m, hq, hgl⟩ := head_block_facts p (lines_from 0 0 p).dropLast hsub
    refine ⟨Line.mk 0 0 :: (lines_from 0 0 p).dropLast, q, m, ?_, hq, by simp, hgl, hmem⟩
    rw [lines, hdec, List.cons_append]
  · have hdec := lines_from_append 0 0 p s hm
    rw [hz] at hdec
    obtain ⟨hmem, q, m, hq, hgl⟩ := head_block_facts p (lines_from 0 0 p) (fun L hL => hL)
    refine ⟨Line.mk 0 0 :: lines_from 0 0 p, q, m, ?_, hq, by simp, hgl, hmem⟩
    rw [lines, hdec, List.cons_append]

/-- The owning record of a character-boundary cut: the byte search at the cut's
byte offset and the UTF-16 search at its UTF-16 offset return the same index,
whose record carries the offsets of some prefix `q` of `p`. -/
theorem owning_cut (p s : List Char) :
    ∃ (i : Nat) (q m : List Char),
      p = q ++ m ∧
      bsearch_line ((lines (p ++ s)).map Line.byte_idx) (len8 p) = i ∧
      bsearch_line ((lines (p ++ s)).map Line.utf16_idx) (len16 p) = i ∧
      (lines (p ++ s))[i]? = some (Line.mk (len8 q) (len16 q)) ∧
      ((lines (p ++ s))[i + 1]? = none ∨
        ∃ e r, s = e ++ r ∧ e ≠ [] ∧
          (lines (p ++ s))[i + 1]? = some (Line.mk (len8 p + len8 e) (len16 p + len16 e))) := by
  obtain ⟨T1, q, m, hdec, hq, hne, hgl, hmem⟩ := table_split p s
  have hGmem : ∀ L ∈ lines_from (len8 p) (len16 p) s,
      len8 p < L.byte_idx ∧ len16 p < L.utf16_idx := by
    intro L hL
    obtain ⟨e, r, hs, hne', hLv⟩ := lines_from_cut (len8 p) (len16 p) s L hL
    have h8 := len8_pos hne'
    have h16 := len16_pos hne'
    rw [hLv]
    exact ⟨by show len8 p < len8 p + len8 e; omega,
           by show len16 p < len16 p + len16 e; omega⟩
  have hT1b : ∀ L ∈ T1, L.byte_idx ≤ len8 p := by
    intro L hL
    obtain ⟨q1, m1, hq1, hLv⟩ := hmem L hL
    rw [hLv, hq1]
    show len8 q1 ≤ len8 (q1 ++ m1)
    simp
  have hT1u : ∀ L ∈ T1, L.utf16_idx ≤ len16 p := by
    intro L hL
    obtain ⟨q1, m1, hq1, hLv⟩ := hmem L hL
    rw [hLv, hq1]
    show len16 q1 ≤ len16 (q1 ++ m1)
    simp
  have hchain : List.Chain' LineLt (T1 ++ lines_from (len8 p) (len16 p) s) := by
    have := lines_chain (p ++ s)
    rwa [hdec] at this
  have hchainT1 : List.Chain' LineLt T1 := (List.chain'_append.mp hchain).1
  have hchB : List.Chain' (· < ·) (T1.map Line.byte_idx) := by
    rw [List.chain'_map]
    exact List.Chain'.imp (fun a b h => h.1) hchainT1
  have hchU : List.Chain' (· < ·) (T1.map Line.utf16_idx) := by
    rw [List.chain'_map]
    exact List.Chain'.imp (fun a b h => h.2) hchainT1
  have hleB : ∀ x ∈ T1.map Line.byte_idx, x ≤ len8 p := by
    intro x hx
    obtain ⟨L, hL, hLx⟩ := List.mem_map.mp hx
    rw [← hLx]; exact hT1b L hL
  have hgtB : ∀ x ∈ (lines_from (len8 p) (len16 p) s).map Line.byte_idx, len8 p < x := by
    intro x hx
    obtain ⟨L, hL, hLx⟩ := List.mem_map.mp hx
    rw [← hLx]; exact (hGmem L hL).1
  have hleU : ∀ x ∈ T1.map Line.utf16_idx, x ≤ len16 p := by
    intro x hx
    obtain ⟨L, hL, hLx⟩ := List.mem_map.mp hx
    rw [← hLx]; exact hT1u L hL
  have hgtU : ∀ x ∈ (lines_from (len8 p) (len16 p) s).map Line.utf16_idx, len16 p < x := by
    intro x hx
    obtain ⟨L, hL, hLx⟩ := List.mem_map.mp hx
    rw [← hLx]; exact (hGmem L hL).2
  refine ⟨T1.length - 1, q, m, hq, ?_, ?_, ?_, ?_⟩
  · rw [hdec, List.map_append,
      bsearch_line_split _ _ _ (by simpa using hne) hchB hleB hgtB]
    simp
  · rw [hdec, List.map_append,
      bsearch_line_split _ _ _ (by simpa using hne) hchU hleU hgtU]
    simp
  · have hlen : T1.length - 1 < T1.length := by
      have : 0 < T1.length := List.length_pos.mpr hne
      omega
    rw [hdec, List.getElem?_append, if_pos hlen, ← List.getLast?_eq_getElem?]
    exact hgl
  · have hlenpos : 0 < T1.length := List.length_pos.mpr hne
    have hidx : T1.length - 1 + 1 = T1.length := by omega
    rw [hdec, hidx, List.getElem?_append, if_neg (by omega)]
    have hz : T1.length - T1.length = 0 := by omega
    rw [hz]
    cases hGe : lines_from (len8 p) (len16 p) s with
    | nil => left; simp
    | cons L G' =>
        right
        have hLmem : L ∈ lines_from (len8 p) (len16 p) s := by rw [hGe]; simp
        obtain ⟨e, r, hs, hne', hLv⟩ := lines_from_cut _ _ s L hLmem
        exact ⟨e, r, hs, hne', by simp [hGe, hLv]⟩

/-! ### The UTF-16 scan -/

/-- Scanning for a target that is exactly `len16 m` units ahead stops exactly
`len8 m` bytes ahead. -/
theorem utf16_scan_exact :
    ∀ (m : List Char) (B K : Nat) (s : List Char),
      utf16_scan B K (K + len16 m) (m ++ s) = some (B + len8 m) := by
  intro m
  induction m with
  | nil =>
      intro B K s
      cases s with
      | nil => simp [utf16_scan]
      | cons c s' => simp [utf16_scan]
  | cons c m' ih =>
      intro B K s
      have h16 := utf16Len_pos c
      rw [List.cons_append, utf16_scan, if_neg (by simp; omega)]
      have ht : K + len16 (c :: m') = K + utf16Len c + len16 m' := by simp; omega
      rw [ht, ih]
      have hb : B + utf8Len c + len8 m' = B + len8 (c :: m') := by simp; omega
      rw [hb]

/-- Scanning for a target strictly beyond the reach of the suffix fails. -/
theorem utf16_scan_over :
    ∀ (m : List Char) (B K u : Nat), K + len16 m < u → utf16_scan B K u m = none := by
  intro m
  induction m with
  | nil =>
      intro B K u h
      simp at h
      simp [utf16_scan]
      omega
  | cons c m' ih =>
      intro B K u h
      have h16 := utf16Len_pos c
      simp only [len16_cons] at h
      rw [utf16_scan, if_neg (by omega)]
      exact ih _ _ _ (by omega)

/-- Scanning for a target that lands strictly inside a two-unit scalar: the
scan steps past that scalar and succeeds at the following character — unless
the scalar ends the text, in which case it fails. -/
theorem utf16_scan_mid :
    ∀ (m : List Char) (B K : Nat) (c : Char) (s : List Char), utf16Len c = 2 →
      utf16_scan B K (K + len16 m + 1) (m ++ c :: s)
        = if s.isEmpty then none else some (B + len8 m + utf8Len c) := by
  intro m
  induction m with
  | nil =>
      intro B K c s hc
      simp only [List.nil_append, len16_nil, Nat.add_zero]
      rw [utf16_scan, if_neg (by omega)]
      cases s with
      | nil =>
          rw [utf16_scan]
          simp [hc]
      | cons c' s' =>
          rw [utf16_scan, if_pos (by omega)]
          simp
  | cons d m' ih =>
      intro B K c s hc
      have h16 := utf16Len_pos d
      rw [List.cons_append, utf16_scan, if_neg (by simp; omega)]
      have ht : K + len16 (d :: m') + 1 = K + utf16Len d + len16 m' + 1 := by simp; omega
      rw [ht, ih _ _ _ _ hc]
      have hb : B + utf8Len d + len8 m' = B + len8 (d :: m') := by simp; omega
      rw [hb]

/-! ### Position conversions at a character-boundary cut -/

/-- `byte_to_utf16` and `utf16_to_byte` on a freshly built source, at any
character-boundary offset: both succeed and are mutually inverse. -/
theorem conversions_at_cut (p s : List Char) :
    (Source.new 0 (p ++ s)).byte_to_utf16 (len8 p) = some (len16 p) ∧
    (Source.new 0 (p ++ s)).utf16_to_byte (len16 p) = some (len8 p) := by
  obtain ⟨i, q, m, hq, hbs, hus, hrec, _⟩ := owning_cut p s
  have hT : (Source.new 0 (p ++ s)).text = p ++ s := rfl
  have hL : (Source.new 0 (p ++ s)).lines = lines (p ++ s) := rfl
  constructor
  · rw [Source.byte_to_utf16, Source.byte_to_line, hT, hL]
    rw [if_pos (by simp : len8 p ≤ len8 (p ++ s)), hbs]
    simp only [Option.bind_eq_bind, Option.some_bind]
    rw [hrec]
    simp only [Option.bind_eq_bind, Option.some_bind]
    subst hq
    show (str_get ((q ++ m) ++ s) (len8 q) (len8 (q ++ m))).bind
        (fun head => some (len16 q + len16 head)) = some (len16 (q ++ m))
    have hsg : str_get ((q ++ m) ++ s) (len8 q) (len8 (q ++ m)) = some m := by
      rw [List.append_assoc]
      have := str_get_spec q m s
      simpa using this
    rw [hsg]
    simp only [Option.bind_eq_bind, Option.some_bind]
    simp
  · rw [Source.utf16_to_byte, hL, hT, hus, hrec]
    simp only [Option.bind_eq_bind, Option.some_bind]
    subst hq
    show (dropBytes ((q ++ m) ++ s) (len8 q)).bind
        (fun suffix => utf16_scan (len8 q) (len16 q) (len16 (q ++ m)) suffix)
      = some (len8 (q ++ m))
    have hdb : dropBytes ((q ++ m) ++ s) (len8 q) = some (m ++ s) := by
      rw [List.append_assoc]
      exact dropBytes_appendLen q (m ++ s)
    rw [hdb]
    simp only [Option.bind_eq_bind, Option.some_bind]
    have h16 : len16 (q ++ m) = len16 q + len16 m := by simp
    have h8 : len8 (q ++ m) = len8 q + len8 m := by simp
    rw [h16, h8]
    exact utf16_scan_exact m (len8 q) (len16 q) s

/-! ### Claims -/

/-- C1: the incremental Line-table update of `edit` does not always agree with
a full rebuild. Failing input: text `"\rb\n"`, edit `1..2` with `""`. The
deletion brings the retained `\r` and the following `\n` together, but the
adjoining special case only fires when the *inserted* text starts with `\n`,
so the just-retained record for the old `\r`-only break (byte 1) survives even
though byte 1 now lies inside a single `\r\n` terminator: the incremental
table has 3 records where the rebuild of `"\r\n"` has 2. -/
theorem claim_C1 :
    ((Source.new 0 ['\r', 'b', '\n']).edit 1 2 []).map Source.lines
        = some [Line.mk 0 0, Line.mk 1 1, Line.mk 2 2] ∧
    ((Source.new 0 ['\r', 'b', '\n']).edit 1 2 []).map (fun s => lines s.text)
        = some [Line.mk 0 0, Line.mk 2 2] ∧
    ([Line.mk 0 0, Line.mk 1 1, Line.mk 2 2] : List Line)
        ≠ [Line.mk 0 0, Line.mk 2 2] := by
  decide

/-- C2: for every text, the Line table starts with the record `{0,0}`, has
strictly increasing byte offsets, and has exactly one record per line of the
text under the splitting rule (`\n`, `\r` not followed by `\n`, and `\r\n` as
one terminator; the trailing line without terminator also counts). -/
theorem claim_C2 (t : List Char) :
    (lines t).head? = some (Line.mk 0 0) ∧
    List.Chain' (fun A B => A.byte_idx < B.byte_idx) (lines t) ∧
    (lines t).length = countBreaks t + 1 := by
  refine ⟨rfl, ?_, ?_⟩
  · exact List.Chain'.imp (fun a b h => h.1) (lines_chain t)
  · simp [lines, lines_from_length]

/-- C3: for every text and every character-boundary byte offset `b`,
`utf16_to_byte (byte_to_utf16 b) = b`. -/
theorem claim_C3 (t : List Char) (b : Nat) (h : is_char_boundary t b = true) :
    ((Source.new 0 t).byte_to_utf16 b).bind (Source.utf16_to_byte (Source.new 0 t))
      = some b := by
  obtain ⟨p, s, rfl, rfl⟩ := is_char_boundary_split h
  obtain ⟨h1, h2⟩ := conversions_at_cut p s
  rw [h1]
  simp only [Option.bind_eq_bind, Option.some_bind]
  exact h2

theorem claim_C3_witness :
    is_char_boundary ['a', 'b'] 1 = true ∧
    ((Source.new 0 ['a', 'b']).byte_to_utf16 1).bind
        (Source.utf16_to_byte (Source.new 0 ['a', 'b'])) = some 1 :=
  ⟨by decide, claim_C3 ['a', 'b'] 1 (by decide)⟩

/-- C9: after cloning and editing through one handle, the clone observes the
pre-edit value unchanged (copy-on-write value semantics) and the edited
snapshot's tree is consistent with its new text, but at the failing input
`"\rb\n"` with edit `1..2 ↦ ""` the edited snapshot's Line table is NOT
consistent with its new text (same line-merge bug as C1), refuting the
mutual-consistency half of the claim. -/
theorem claim_C9 :
    Source.clone (Source.new 0 ['\r', 'b', '\n']) = Source.new 0 ['\r', 'b', '\n'] ∧
    ((Source.new 0 ['\r', 'b', '\n']).edit 1 2 []).map
        (fun s => decide (s.root = parse s.text)) = some true ∧
    ((Source.new 0 ['\r', 'b', '\n']).edit 1 2 []).map
        (fun s => decide (s.lines = lines s.text)) = some false := by
  decide

/-- C5 counterexample: on text `"a💛b"`, the UTF-16 index 2 points into the
middle of the surrogate pair of `💛` (units 1..3), yet `utf16_to_byte`
returns `some 5` (the byte offset just past `💛`), not `none` as C1 claims
for unaligned indices. -/
theorem claim_C5_counterexample :
    (Source.new 0 ['a', Char.ofNat 0x1F49B, 'b']).utf16_to_byte 2 = some 5 ∧
    (Source.new 0 ['a', Char.ofNat 0x1F49B, 'b']).utf16_to_byte 2 ≠ none := by
  decide

/-- C6 counterexample: line 0 of `"ab"` has 2 scalars, yet
`line_column_to_byte 0 5` returns `some 2` (the line's end, clamped), not
`none` as the claim requires for a column count exceeding the line. -/
theorem claim_C6_counterexample :
    (Source.new 0 ['a', 'b']).line_column_to_byte 0 5 = some 2 ∧
    (Source.new 0 ['a', 'b']).line_column_to_byte 0 5 ≠ none := by
  decide

/-- C8 counterexample: on text `"ä"` (one 2-byte scalar), the range `1..1` is
within the bounds of the text (`1 ≤ 2`), yet `edit` panics (modelled `none`)
because byte 1 is not a character boundary. -/
theorem claim_C8_counterexample :
    1 ≤ len8 [Char.ofNat 0xE4] ∧
    (Source.new 0 [Char.ofNat 0xE4]).edit 1 1 [] = none := by
  decide

/-! ### Byte search at an arbitrary in-bounds index -/

theorem lines_mem_cut (t : List Char) :
    ∀ L ∈ lines t, ∃ q r, t = q ++ r ∧ L = Line.mk (len8 q) (len16 q) := by
  intro L hL
  rcases List.mem_cons.mp hL with hL | hL
  · exact ⟨[], t, by simp, by simp [hL]⟩
  · obtain ⟨q, r, hqr, _, hLv⟩ := lines_from_cut 0 0 t L hL
    exact ⟨q, r, hqr, by simp [hLv]⟩

instance : IsTrans Line LineLt := ⟨fun _ _ _ => lineLt_trans⟩

theorem lines_pairwise (t : List Char) : List.Pairwise LineLt (lines t) :=
  List.chain'_iff_pairwise.mp (lines_chain t)

theorem pairwise_dropWhile_gt (b : Nat) :
    ∀ (l : List Line), List.Pairwise LineLt l →
      ∀ L ∈ l.dropWhile (fun L => decide (L.byte_idx ≤ b)), b < L.byte_idx := by
  intro l
  induction l with
  | nil => simp
  | cons x xs ih =>
      intro hpw L hL
      by_cases hx : x.byte_idx ≤ b
      · rw [List.dropWhile_cons_of_pos (by simpa using hx)] at hL
        exact ih (List.Pairwise.of_cons hpw) L hL
      · rw [List.dropWhile_cons_of_neg (by simpa using hx)] at hL
        rcases List.mem_cons.mp hL with rfl | hL'
        · omega
        · have hlt := ((List.pairwise_cons.mp hpw).1 L hL').1
          omega

/-- The record found by `byte_to_line`'s binary search at an arbitrary key `b`
(with `0 ≤ b` always satisfied by the `{0,0}` record): it lies at a
character-boundary cut with byte offset `≤ b`, and its index is the greatest
among records with byte offset `≤ b`. -/
theorem byte_search_arbitrary (t : List Char) (b : Nat) :
    ∃ (i : Nat) (q r : List Char),
      t = q ++ r ∧ len8 q ≤ b ∧
      bsearch_line ((lines t).map Line.byte_idx) b = i ∧
      (lines t)[i]? = some (Line.mk (len8 q) (len16 q)) ∧
      (∀ j L, (lines t)[j]? = some L → L.byte_idx ≤ b → j ≤ i) := by
  have hsplit : lines t
      = (lines t).takeWhile (fun L => decide (L.byte_idx ≤ b))
        ++ (lines t).dropWhile (fun L => decide (L.byte_idx ≤ b)) :=
    (List.takeWhile_append_dropWhile _ _).symm
  set T1 := (lines t).takeWhile (fun L => decide (L.byte_idx ≤ b)) with hT1
  set T2 := (lines t).dropWhile (fun L => decide (L.byte_idx ≤ b)) with hT2
  have hT1ne : T1 ≠ [] := by
    rw [hT1, lines, List.takeWhile_cons_of_pos (by simp)]
    simp
  have hmemT1 : ∀ L ∈ T1, L.byte_idx ≤ b := by
    intro L hL
    have := List.mem_takeWhile_imp hL
    simpa using this
  have hmemT2 : ∀ L ∈ T2, b < L.byte_idx := by
    intro L hL
    exact pairwise_dropWhile_gt b (lines t) (lines_pairwise t) L hL
  have hchain : List.Chain' LineLt (T1 ++ T2) := by
    have := lines_chain t
    rwa [hsplit] at this
  have hchB : List.Chain' (· < ·) (T1.map Line.byte_idx) := by
    rw [List.chain'_map]
    exact List.Chain'.imp (fun a b h => h.1) (List.chain'_append.mp hchain).1
  obtain ⟨Lst, hgl⟩ : ∃ Lst, T1.getLast? = some Lst := by
    cases hgle : T1.getLast? with
    | some a => exact ⟨a, rfl⟩
    | none =>
        cases hT1e : T1 with
        | nil => exact absurd hT1e hT1ne
        | cons x xs => rw [hT1e] at hgle; simp at hgle
  have hLstMem : Lst ∈ lines t := by
    rw [hsplit]
    exact List.mem_append_left _ (getLast?_mem' _ _ hgl)
  obtain ⟨q, r, hqr, hLv⟩ := lines_mem_cut t Lst hLstMem
  have hlenpos : 0 < T1.length := List.length_pos.mpr hT1ne
  refine ⟨T1.length - 1, q, r, hqr, ?_, ?_, ?_, ?_⟩
  · have := hmemT1 Lst (getLast?_mem' _ _ hgl)
    rw [hLv] at this
    exact this
  · rw [hsplit, List.map_append,
      bsearch_line_split _ _ _ (by simpa using hT1ne) hchB ?_ ?_]
    · simp
    · intro x hx
      obtain ⟨L, hL, hLx⟩ := List.mem_map.mp hx
      rw [← hLx]; exact hmemT1 L hL
    · intro x hx
      obtain ⟨L, hL, hLx⟩ := List.mem_map.mp hx
      rw [← hLx]; exact hmemT2 L hL
  · have hlen : T1.length - 1 < T1.length := by omega
    rw [hsplit, List.getElem?_append, if_pos hlen, ← List.getLast?_eq_getElem?, hgl, hLv]
  · intro j L hjL hLb
    by_contra hji
    have hjge : T1.length ≤ j := by omega
    rw [hsplit, List.getElem?_append, if_neg (by omega)] at hjL
    have hLT2 : L ∈ T2 := List.getElem?_mem hjL
    have := hmemT2 L hLT2
    omega

/-- C7: `byte_to_line` fails exactly when the byte index exceeds the text
length; at the text length exactly it returns the last line's index; and
whenever it succeeds it returns the greatest record index whose byte offset
is `≤` the query. -/
theorem claim_C7 (t : List Char) (b : Nat) :
    ((Source.new 0 t).byte_to_line b = none ↔ len8 t < b) ∧
    (b = len8 t →
      (Source.new 0 t).byte_to_line b = some ((Source.new 0 t).lines.length - 1)) ∧
    (∀ i, (Source.new 0 t).byte_to_line b = some i →
      ∃ L, (Source.new 0 t).lines[i]? = some L ∧ L.byte_idx ≤ b ∧
        ∀ j L', (Source.new 0 t).lines[j]? = some L' → L'.byte_idx ≤ b → j ≤ i) := by
  have hT : (Source.new 0 t).text = t := rfl
  have hL : (Source.new 0 t).lines = lines t := rfl
  obtain ⟨i0, q, r, hqr, hqb, hbs, hrec, hgreat⟩ := byte_search_arbitrary t b
  have hi0lt : i0 < (lines t).length := by
    by_contra hge
    rw [List.getElem?_eq_none (by omega)] at hrec
    exact absurd hrec (by simp)
  refine ⟨?_, ?_, ?_⟩
  · rw [Source.byte_to_line, hT]
    by_cases hb : b ≤ len8 t
    · rw [if_pos hb]; simp; omega
    · rw [if_neg hb]; simp; omega
  · intro hbl
    rw [Source.byte_to_line, hT, hL, if_pos (by omega), hbs]
    have hlast : ∃ Ll, (lines t)[(lines t).length - 1]? = some Ll ∧ Ll.byte_idx ≤ b := by
      have hne : lines t ≠ [] := by rw [lines]; simp
      have hpos : 0 < (lines t).length := List.length_pos.mpr hne
      cases hge : (lines t)[(lines t).length - 1]? with
      | none =>
          rw [List.getElem?_eq_none_iff] at hge
          omega
      | some Ll =>
          have hmem : Ll ∈ lines t := List.getElem?_mem hge
          obtain ⟨q2, r2, hqr2, hLv2⟩ := lines_mem_cut t Ll hmem
          refine ⟨Ll, rfl, ?_⟩
          rw [hLv2]
          show len8 q2 ≤ b
          rw [hbl, hqr2]
          simp
    obtain ⟨Ll, hLl, hLlb⟩ := hlast
    have hle2 := hgreat _ _ hLl hLlb
    congr 1
    omega
  · intro i hi
    rw [Source.byte_to_line, hT, hL] at hi
    by_cases hb : b ≤ len8 t
    · rw [if_pos hb, hbs] at hi
      have hii : i = i0 := (Option.some.inj hi).symm
      subst hii
      refine ⟨Line.mk (len8 q) (len16 q), ?_, ?_, ?_⟩
      · rw [hL]; exact hrec
      · exact hqb
      · intro j L' hj hj2
        rw [hL] at hj
        exact hgreat j L' hj hj2
    · rw [if_neg hb] at hi
      exact absurd hi (by simp)

theorem claim_C7_witness :
    ((Source.new 0 ['a', '\n']).byte_to_line 3 = none ↔ len8 ['a', '\n'] < 3) ∧
    (Source.new 0 ['a', '\n']).byte_to_line 2
      = some ((Source.new 0 ['a', '\n']).lines.length - 1) :=
  ⟨(claim_C7 ['a', '\n'] 3).1, (claim_C7 ['a', '\n'] 2).2.1 (by decide)⟩

/-- At an in-bounds byte index that is not a character boundary, the position
queries fail: the slice `text[line_start..byte_idx]` is `none`. -/
theorem queries_none_of_not_boundary (t : List Char) (b : Nat) (hle : b ≤ len8 t)
    (hnb : is_char_boundary t b = false) :
    (Source.new 0 t).byte_to_utf16 b = none ∧
    (Source.new 0 t).byte_to_column b = none := by
  have hT : (Source.new 0 t).text = t := rfl
  have hL : (Source.new 0 t).lines = lines t := rfl
  obtain ⟨i0, q, r, hqr, hqb, hbs, hrec, _⟩ := byte_search_arbitrary t b
  have hsg : str_get t (len8 q) b = none := by
    rw [str_get, if_pos hqb]
    rw [hqr, dropBytes_appendLen]
    simp only [Option.bind_eq_bind, Option.some_bind]
    cases htb : takeBytes r (b - len8 q) with
    | none => rfl
    | some mm =>
        obtain ⟨r2, hr2, hlen⟩ := takeBytes_eq_some r _ mm htb
        exfalso
        have hbound : is_char_boundary t b = true := by
          have heq : t = (q ++ mm) ++ r2 := by rw [hqr, hr2]; simp
          have hlen2 : len8 (q ++ mm) = b := by simp [hlen]; omega
          rw [heq, ← hlen2]
          exact is_char_boundary_cut (q ++ mm) r2
        rw [hbound] at hnb
        exact absurd hnb (by simp)
  constructor
  · rw [Source.byte_to_utf16, Source.byte_to_line, hT, hL, if_pos hle, hbs]
    simp only [Option.bind_eq_bind, Option.some_bind]
    rw [hrec]
    simp only [Option.bind_eq_bind, Option.some_bind]
    show (str_get t (len8 q) b).bind _ = none
    rw [hsg]
    rfl
  · rw [Source.byte_to_column, Source.byte_to_line, hT, hL, if_pos hle, hbs]
    simp only [Option.bind_eq_bind, Option.some_bind]
    rw [Source.line_to_byte, hL, hrec]
    show (str_get t (len8 q) b).bind _ = none
    rw [hsg]
    rfl

/-- C10: at an in-bounds byte index that is not a UTF-8 character boundary,
`byte_to_utf16` and `byte_to_column` return `none` (they do not panic and do
not produce a value): the position queries are partial also at mid-character
indices. -/
theorem claim_C10 (t : List Char) (b : Nat) (hle : b ≤ len8 t)
    (hnb : is_char_boundary t b = false) :
    (Source.new 0 t).byte_to_utf16 b = none ∧
    (Source.new 0 t).byte_to_column b = none :=
  queries_none_of_not_boundary t b hle hnb

theorem claim_C10_witness :
    1 ≤ len8 [Char.ofNat 0xE4] ∧ is_char_boundary [Char.ofNat 0xE4] 1 = false ∧
    (Source.new 0 [Char.ofNat 0xE4]).byte_to_utf16 1 = none ∧
    (Source.new 0 [Char.ofNat 0xE4]).byte_to_column 1 = none :=
  ⟨by decide, by decide,
    (claim_C10 [Char.ofNat 0xE4] 1 (by decide) (by decide)).1,
    (claim_C10 [Char.ofNat 0xE4] 1 (by decide) (by decide)).2⟩

/-- C4: for every text and every character-boundary byte offset `b`,
`line_column_to_byte (byte_to_line b) (byte_to_column b) = b`. -/
theorem claim_C4 (t : List Char) (b : Nat) (h : is_char_boundary t b = true) :
    ((Source.new 0 t).byte_to_line b).bind (fun l =>
      ((Source.new 0 t).byte_to_column b).bind (fun c =>
        (Source.new 0 t).line_column_to_byte l c)) = some b := by
  obtain ⟨p, s, rfl, rfl⟩ := is_char_boundary_split h
  obtain ⟨i, q, m, hq, hbs, hus, hrec, hnext⟩ := owning_cut p s
  have hT : (Source.new 0 (p ++ s)).text = p ++ s := rfl
  have hL : (Source.new 0 (p ++ s)).lines = lines (p ++ s) := rfl
  have hbl : (Source.new 0 (p ++ s)).byte_to_line (len8 p) = some i := by
    rw [Source.byte_to_line, hT, hL, if_pos (by simp), hbs]
  have hsg : str_get (p ++ s) (len8 q) (len8 p) = some m := by
    rw [hq, List.append_assoc]
    have := str_get_spec q m s
    simpa [hq] using this
  have hcol : (Source.new 0 (p ++ s)).byte_to_column (len8 p) = some m.length := by
    rw [Source.byte_to_column, hbl]
    simp only [Option.bind_eq_bind, Option.some_bind]
    rw [Source.line_to_byte, hL, hrec]
    show (str_get (Source.new 0 (p ++ s)).text (len8 q) (len8 p)).bind
        (fun head => some head.length) = some m.length
    rw [hT, hsg]
    rfl
  have hlcb : (Source.new 0 (p ++ s)).line_column_to_byte i m.length = some (len8 p) := by
    simp only [Source.line_column_to_byte, Source.line_to_range, Source.line_to_byte,
      hL, hT]
    rw [hrec]
    rcases hnext with hn | ⟨e, r, hs, hnee, hn⟩
    · rw [hn]
      simp only [Option.map_some', Option.map_none', Option.getD_none,
        Option.bind_eq_bind, Option.some_bind]
      have hsg2 : str_get (p ++ s) (len8 q) (len8 (p ++ s)) = some (m ++ s) := by
        rw [hq, List.append_assoc]
        have := str_get_spec q (m ++ s) []
        simpa using this
      rw [hsg2]
      simp only [Option.some_bind]
      rw [List.take_left]
      rw [hq]
      simp
    · rw [hn]
      simp only [Option.map_some', Option.bind_eq_bind, Option.some_bind,
        Option.getD_some]
      have hsg2 : str_get (p ++ s) (len8 q) (len8 p + len8 e) = some (m ++ e) := by
        have heq : p ++ s = q ++ (m ++ e) ++ r := by rw [hq, hs]; simp
        have hlen : len8 p + len8 e = len8 q + len8 (m ++ e) := by rw [hq]; simp; omega
        rw [heq, hlen]
        exact str_get_spec q (m ++ e) r
      rw [hsg2]
      simp only [Option.some_bind]
      rw [List.take_left]
      rw [hq]
      simp
  rw [hbl]
  simp only [Option.bind_eq_bind, Option.some_bind]
  rw [hcol]
  simp only [Option.some_bind]
  exact hlcb

theorem claim_C4_witness :
    is_char_boundary ['a', '\n', 'b'] 3 = true ∧
    ((Source.new 0 ['a', '\n', 'b']).byte_to_line 3).bind (fun l =>
      ((Source.new 0 ['a', '\n', 'b']).byte_to_column 3).bind (fun c =>
        (Source.new 0 ['a', '\n', 'b']).line_column_to_byte l c)) = some 3 :=
  ⟨by decide, claim_C4 ['a', '\n', 'b'] 3 (by decide)⟩

/-- C5 (amended): `utf16_to_byte` returns the byte length when the index
equals the total UTF-16 length exactly, `none` when it exceeds it; an index
pointing into the middle of a surrogate pair is NOT rejected: the scan steps
past that character and returns the byte offset just after it, failing only
when that character ends the text. -/
theorem claim_C5 (t : List Char) (u : Nat) :
    (u = len16 t → (Source.new 0 t).utf16_to_byte u = some (len8 t)) ∧
    (len16 t < u → (Source.new 0 t).utf16_to_byte u = none) ∧
    (∀ p c rest, t = p ++ c :: rest → utf16Len c = 2 → u = len16 p + 1 →
      (Source.new 0 t).utf16_to_byte u
        = if rest.isEmpty then none else some (len8 p + utf8Len c)) := by
  have hT : (Source.new 0 t).text = t := rfl
  have hL : (Source.new 0 t).lines = lines t := rfl
  refine ⟨?_, ?_, ?_⟩
  · intro hu
    subst hu
    have := (conversions_at_cut t []).2
    simpa using this
  · intro hu
    have hne : lines t ≠ [] := by rw [lines]; simp
    obtain ⟨Lst, hgl⟩ : ∃ L, (lines t).getLast? = some L := by
      cases hgle : (lines t).getLast? with
      | some a => exact ⟨a, rfl⟩
      | none => rw [lines] at hgle; simp at hgle
    obtain ⟨q, r, hqr, hLv⟩ := lines_mem_cut t Lst (getLast?_mem' _ _ hgl)
    have hch : List.Chain' (· < ·) ((lines t).map Line.utf16_idx) := by
      rw [List.chain'_map]
      exact List.Chain'.imp (fun a b h => h.2) (lines_chain t)
    have hkeyle : ∀ x ∈ (lines t).map Line.utf16_idx, x ≤ u := by
      intro x hx
      obtain ⟨L, hLm, hLx⟩ := List.mem_map.mp hx
      obtain ⟨q1, r1, hqr1, hLv1⟩ := lines_mem_cut t L hLm
      rw [← hLx, hLv1]
      show len16 q1 ≤ u
      have : len16 q1 ≤ len16 t := by rw [hqr1]; simp
      omega
    have hsel : bsearch_line ((lines t).map Line.utf16_idx) u = (lines t).length - 1 := by
      have hks : (lines t).map Line.utf16_idx = (lines t).map Line.utf16_idx ++ [] := by simp
      rw [hks, bsearch_line_split _ _ _ (by simp [hne]) hch hkeyle (by simp)]
      simp
    have hidx : (lines t)[(lines t).length - 1]? = some Lst := by
      rw [← List.getLast?_eq_getElem?]
      exact hgl
    rw [Source.utf16_to_byte, hL, hT, hsel, hidx]
    simp only [Option.bind_eq_bind, Option.some_bind]
    rw [hLv]
    show (dropBytes t (len8 q)).bind _ = none
    rw [hqr, dropBytes_appendLen]
    simp only [Option.some_bind]
    apply utf16_scan_over
    have : len16 (q ++ r) = len16 q + len16 r := by simp
    rw [hqr, this] at hu
    omega
  · intro p c rest hts hc2 hu
    subst hts
    obtain ⟨T1, q, m, hdec, hq, hne, hgl, hmem⟩ := table_split p (c :: rest)
    have hcne : c ≠ '\n' ∧ c ≠ '\r' := by
      constructor <;> rintro rfl <;> simp [utf16Len] at hc2
    have hcnl : is_newline c = false := by
      simp [is_newline, hcne.1, hcne.2]
    have hGstep : lines_from (len8 p) (len16 p) (c :: rest)
        = lines_from (len8 p + utf8Len c) (len16 p + utf16Len c) rest :=
      lf_cons_not _ _ _ _ hcnl
    have hGgt : ∀ L ∈ lines_from (len8 p) (len16 p) (c :: rest), u < L.utf16_idx := by
      intro L hL
      rw [hGstep] at hL
      obtain ⟨e, r, hs, hnee, hLv⟩ := lines_from_cut _ _ rest L hL
      rw [hLv]
      show u < len16 p + utf16Len c + len16 e
      omega
    have hchain : List.Chain' LineLt (T1 ++ lines_from (len8 p) (len16 p) (c :: rest)) := by
      have := lines_chain (p ++ c :: rest)
      rwa [hdec] at this
    have hchU : List.Chain' (· < ·) (T1.map Line.utf16_idx) := by
      rw [List.chain'_map]
      exact List.Chain'.imp (fun a b h => h.2) (List.chain'_append.mp hchain).1
    have hleU : ∀ x ∈ T1.map Line.utf16_idx, x ≤ u := by
      intro x hx
      obtain ⟨L, hLm, hLx⟩ := List.mem_map.mp hx
      obtain ⟨q1, m1, hq1, hLv1⟩ := hmem L hLm
      rw [← hLx, hLv1]
      show len16 q1 ≤ u
      have : len16 q1 ≤ len16 p := by rw [hq1]; simp
      omega
    have hgtU : ∀ x ∈ (lines_from (len8 p) (len16 p) (c :: rest)).map Line.utf16_idx,
        u < x := by
      intro x hx
      obtain ⟨L, hLm, hLx⟩ := List.mem_map.mp hx
      rw [← hLx]
      exact hGgt L hLm
    have hsel : bsearch_line ((lines (p ++ c :: rest)).map Line.utf16_idx) u
        = T1.length - 1 := by
      rw [hdec, List.map_append,
        bsearch_line_split _ _ _ (by simpa using hne) hchU hleU hgtU]
      simp
    have hlen : T1.length - 1 < T1.length := by
      have : 0 < T1.length := List.length_pos.mpr hne
      omega
    have hidx : (lines (p ++ c :: rest))[T1.length - 1]?
        = some (Line.mk (len8 q) (len16 q)) := by
      rw [hdec, List.getElem?_append, if_pos hlen, ← List.getLast?_eq_getElem?]
      exact hgl
    rw [Source.utf16_to_byte, hL, hT, hsel, hidx]
    simp only [Option.bind_eq_bind, Option.some_bind]
    show (dropBytes (p ++ c :: rest) (len8 q)).bind _ = _
    have hdb : dropBytes (p ++ c :: rest) (len8 q) = some (m ++ c :: rest) := by
      rw [hq, List.append_assoc]
      exact dropBytes_appendLen q (m ++ c :: rest)
    rw [hdb]
    simp only [Option.some_bind]
    have hu' : u = len16 q + len16 m + 1 := by
      rw [hq] at hu
      simp at hu
      omega
    rw [hu', utf16_scan_mid m (len8 q) (len16 q) c rest hc2]
    have hp8 : len8 q + len8 m = len8 p := by rw [hq]; simp
    rw [hp8]

theorem claim_C5_witness :
    (Source.new 0 ['a']).utf16_to_byte 1 = some 1 ∧
    (Source.new 0 ['a']).utf16_to_byte 2 = none ∧
    (Source.new 0 [Char.ofNat 0x1F49B]).utf16_to_byte 1 = none ∧
    (Source.new 0 [Char.ofNat 0x1F49B, 'b']).utf16_to_byte 1 = some 4 :=
  ⟨(claim_C5 ['a'] 1).1 (by decide),
   (claim_C5 ['a'] 2).2.1 (by decide),
   by
     have := (claim_C5 [Char.ofNat 0x1F49B] 1).2.2 [] (Char.ofNat 0x1F49B) []
       (by decide) (by decide) (by decide)
     simpa using this,
   by
     have := (claim_C5 [Char.ofNat 0x1F49B, 'b'] 1).2.2 [] (Char.ofNat 0x1F49B) ['b']
       (by decide) (by decide) (by decide)
     rw [this]
     decide⟩

/-- C6 (amended): `line_column_to_byte` returns `none` exactly when the line
index is out of range; for a valid line `l`, writing the text as
`q ++ m ++ r` with `len8 q` the line's start and `len8 q + len8 m` its end
(the next line's start, or the text end with `r = []` for the last line), the
result is `some (len8 q + len8 (m.take c))` — it advances `min c (m.length)`
scalars, clamping at the line's end instead of failing. -/
theorem claim_C6 (t : List Char) (l c : Nat) :
    ((Source.new 0 t).line_column_to_byte l c = none ↔
      (Source.new 0 t).lines.length ≤ l) ∧
    (l < (Source.new 0 t).lines.length →
      ∃ q m r, t = q ++ m ++ r ∧
        (Source.new 0 t).line_to_byte l = some (len8 q) ∧
        ((Source.new 0 t).line_to_byte (l + 1) = some (len8 q + len8 m) ∨
          ((Source.new 0 t).line_to_byte (l + 1) = none ∧ r = [])) ∧
        (Source.new 0 t).line_column_to_byte l c
          = some (len8 q + len8 (m.take c))) := by
  have hT : (Source.new 0 t).text = t := rfl
  have hL : (Source.new 0 t).lines = lines t := rfl
  have main : l < (lines t).length →
      ∃ q m r, t = q ++ m ++ r ∧
        (Source.new 0 t).line_to_byte l = some (len8 q) ∧
        ((Source.new 0 t).line_to_byte (l + 1) = some (len8 q + len8 m) ∨
          ((Source.new 0 t).line_to_byte (l + 1) = none ∧ r = [])) ∧
        (Source.new 0 t).line_column_to_byte l c
          = some (len8 q + len8 (m.take c)) := by
    intro hlt
    obtain ⟨L, hLe⟩ : ∃ L, (lines t)[l]? = some L := by
      cases hge : (lines t)[l]? with
      | none => rw [List.getElem?_eq_none_iff] at hge; omega
      | some L => exact ⟨L, rfl⟩
    obtain ⟨q, rq, hqr, hLv⟩ := lines_mem_cut t L (List.getElem?_mem hLe)
    have hl2b : (Source.new 0 t).line_to_byte l = some (len8 q) := by
      rw [Source.line_to_byte, hL, hLe, hLv]
      rfl
    cases hLe2 : (lines t)[l + 1]? with
    | none =>
        refine ⟨q, rq, [], by simp [hqr], hl2b, Or.inr ⟨?_, rfl⟩, ?_⟩
        · rw [Source.line_to_byte, hL, hLe2]
          rfl
        · simp only [Source.line_column_to_byte, Source.line_to_range,
            Source.line_to_byte, hL, hT]
          rw [hLe, hLe2, hLv]
          simp only [Option.map_some', Option.map_none', Option.getD_none,
            Option.bind_eq_bind, Option.some_bind]
          have hsg : str_get t (len8 q) (len8 t) = some rq := by
            conv in len8 t => rw [hqr]
            rw [hqr]
            have := str_get_spec q rq []
            simpa using this
          rw [hsg]
          rfl
    | some L2 =>
        obtain ⟨q2, rq2, hqr2, hLv2⟩ := lines_mem_cut t L2 (List.getElem?_mem hLe2)
        have hlt12 : len8 q < len8 q2 := by
          have hpw := lines_pairwise t
          rw [List.pairwise_iff_getElem] at hpw
          obtain ⟨hl1, hLg1⟩ := List.getElem?_eq_some.mp hLe
          obtain ⟨hl2, hLg2⟩ := List.getElem?_eq_some.mp hLe2
          have := hpw l (l + 1) hl1 hl2 (by omega)
          rw [hLg1, hLg2, hLv, hLv2] at this
          exact this.1
        obtain ⟨mext, hmext⟩ := cut_cmp q rq q2 rq2 (by rw [← hqr, ← hqr2]) (by omega)
        refine ⟨q, mext, rq2, by rw [← hmext]; exact hqr2, hl2b,
          Or.inl ?_, ?_⟩
        · rw [Source.line_to_byte, hL, hLe2, hLv2, hmext]
          simp
        · simp only [Source.line_column_to_byte, Source.line_to_range,
            Source.line_to_byte, hL, hT]
          rw [hLe, hLe2, hLv, hLv2]
          simp only [Option.map_some', Option.bind_eq_bind, Option.some_bind,
            Option.getD_some]
          have hsg : str_get t (len8 q) (len8 q2) = some mext := by
            have heq : t = q ++ mext ++ rq2 := by
              rw [← hmext]; exact hqr2
            have hlen : len8 q2 = len8 q + len8 mext := by rw [hmext]; simp
            rw [heq, hlen]
            exact str_get_spec q mext rq2
          rw [hsg]
          rfl
  constructor
  · constructor
    · intro hnone
      by_contra hlt
      rw [hL] at hlt
      obtain ⟨_, _, _, _, _, _, hval⟩ := main (by omega)
      rw [hval] at hnone
      exact absurd hnone (by simp)
    · intro hge
      rw [hL] at hge
      simp only [Source.line_column_to_byte, Source.line_to_range,
        Source.line_to_byte, hL, hT]
      rw [List.getElem?_eq_none (by omega)]
      rfl
  · intro hlt
    rw [hL] at hlt
    exact main hlt

theorem claim_C6_witness :
    ((Source.new 0 ['a', 'b']).line_column_to_byte 7 9 = none ↔
      (Source.new 0 ['a', 'b']).lines.length ≤ 7) ∧
    ∃ q m r, (['a', 'b'] : List Char) = q ++ m ++ r ∧
      (Source.new 0 ['a', 'b']).line_to_byte 0 = some (len8 q) ∧
      ((Source.new 0 ['a', 'b']).line_to_byte 1 = some (len8 q + len8 m) ∨
        ((Source.new 0 ['a', 'b']).line_to_byte 1 = none ∧ r = [])) ∧
      (Source.new 0 ['a', 'b']).line_column_to_byte 0 5
        = some (len8 q + len8 (m.take 5)) :=
  ⟨(claim_C6 ['a', 'b'] 7 9).1, (claim_C6 ['a', 'b'] 0 5).2 (by decide)⟩

/-- C8 (amended): `edit` completes (returns a snapshot) exactly when the range
is valid for the current text: `start ≤ end` and both endpoints on UTF-8
character boundaries (hence within bounds). Out-of-bounds ranges panic
(modelled `none`), but so do in-bounds ranges whose endpoints split a
multi-byte character. -/
theorem claim_C8 (t : List Char) (a b : Nat) (w : List Char) :
    ((Source.new 0 t).edit a b w).isSome
      = (is_char_boundary t a && is_char_boundary t b && decide (a ≤ b)) := by
  have hT : (Source.new 0 t).text = t := rfl
  have hL : (Source.new 0 t).lines = lines t := rfl
  by_cases ha : is_char_boundary t a = true
  · obtain ⟨pa, sa, rfl, rfl⟩ := is_char_boundary_split ha
    have h1 : (Source.new 0 (pa ++ sa)).byte_to_utf16 (len8 pa) = some (len16 pa) :=
      (conversions_at_cut pa sa).1
    have h2 : (Source.new 0 (pa ++ sa)).byte_to_line (len8 pa)
        = some (bsearch_line ((lines (pa ++ sa)).map Line.byte_idx) (len8 pa)) := by
      rw [Source.byte_to_line, hT, hL, if_pos (by simp : len8 pa ≤ len8 (pa ++ sa))]
    rw [Source.edit, h1, h2]
    simp only [Option.bind_eq_bind, Option.some_bind]
    by_cases hab : len8 pa ≤ b
    · rw [if_pos hab]
      have htk : takeBytes (Source.new 0 (pa ++ sa)).text (len8 pa) = some pa := by
        rw [hT]
        exact takeBytes_appendLen pa sa
      rw [htk]
      simp only [Option.bind_eq_bind, Option.some_bind]
      by_cases hb : is_char_boundary (pa ++ sa) b = true
      · obtain ⟨suf, hsuf⟩ : ∃ suf, dropBytes (pa ++ sa) b = some suf := by
          simpa [is_char_boundary, Option.isSome_iff_exists] using hb
        have hdr : dropBytes (Source.new 0 (pa ++ sa)).text b = some suf := by
          rw [hT]; exact hsuf
        rw [hdr]
        simp [ha, hb, hab]
      · have hb' : is_char_boundary (pa ++ sa) b = false := by simpa using hb
        have hdr : dropBytes (Source.new 0 (pa ++ sa)).text b = none := by
          rw [hT]; exact dropBytes_none_of_not_boundary hb'
        rw [hdr]
        simp [hb']
    · rw [if_neg hab]
      simp [hab]
  · have ha' : is_char_boundary t a = false := by simpa using ha
    by_cases hlen : a ≤ len8 t
    · have h0 := (queries_none_of_not_boundary t a hlen ha').1
      rw [Source.edit, h0]
      simp [ha']
    · have h2 : (Source.new 0 t).byte_to_line a = none := by
        rw [Source.byte_to_line, hT, if_neg hlen]
      have h1 : (Source.new 0 t).byte_to_utf16 a = none := by
        rw [Source.byte_to_utf16, h2]
        rfl
      rw [Source.edit, h1]
      simp [ha']

/-- Fidelity check against the repository's own unit test
(`test_source_file_new` on `TEST = "ä\tcde\nf💛g\r\nhi\rjkl"`): the model
reproduces the exact Line table from `source.rs`. -/
theorem lines_matches_repo_test :
    lines ([Char.ofNat 0xE4, '\t', 'c', 'd', 'e', '\n', 'f', Char.ofNat 0x1F49B,
            'g', '\r', '\n', 'h', 'i', '\r', 'j', 'k', 'l'])
      = [Line.mk 0 0, Line.mk 7 6, Line.mk 15 12, Line.mk 18 15] := by
  decide
